import Mathlib

set_option maxHeartbeats 1000000

/- Shallow embedding of clean_invalid_class_statements from
   src/backend/app/routers/modify.py.  Python strings are modelled as
   List Char; str.split, str.strip, str.startswith, single-character join,
   and the three anchored regular expressions used by the function are
   modelled character by character.  Whitespace is the ASCII whitespace
   set on which Python str.strip and the regex class \s agree for ASCII
   input.  The Python set subgraph_ids is modelled as the list of the
   identifiers added to it, in insertion order; only membership in it is
   ever consulted, so this is membership-equivalent. -/

def nlChar : Char := Char.ofNat 10

def dquote : Char := Char.ofNat 34

def squote : Char := Char.ofNat 39

def pyIsSpace (c : Char) : Bool :=
  c = ' ' || c = Char.ofNat 9 || c = nlChar || c = Char.ofNat 13 ||
    c = Char.ofNat 11 || c = Char.ofNat 12

def isQuote (c : Char) : Bool := c = dquote || c = squote

def notTerm (c : Char) : Bool := !(c = ';' || c = ':')

def isIdentStart (c : Char) : Bool := c.isAlpha || c = '_'

def isIdentChar (c : Char) : Bool := c.isAlpha || c.isDigit || c = '_'

/-- Model of Python s.split(sep) for a one-character separator. -/
def splitSep (sep : Char) : List Char → List (List Char)
  | [] => [[]]
  | c :: cs =>
    match splitSep sep cs with
    | [] => [[]]
    | g :: gs => if c = sep then [] :: g :: gs else (c :: g) :: gs

/-- Model of Python sep.join for a one-character separator. -/
def joinSep (sep : Char) : List (List Char) → List Char
  | [] => []
  | [x] => x
  | x :: y :: xs => x ++ sep :: joinSep sep (y :: xs)

/-- Model of the Python str.strip family: drop the characters satisfying p
from both ends of the string. -/
def stripChars (p : Char → Bool) (s : List Char) : List Char :=
  ((s.dropWhile p).reverse.dropWhile p).reverse

def pyStrip (s : List Char) : List Char := stripChars pyIsSpace s

/-- Group 1 of re.match against subgraph\s+([A-Za-z_][A-Za-z0-9_]*), the
bareword subgraph-declaration pattern of the first pass. -/
def subgraphExplicitMatch (s : List Char) : Option (List Char) :=
  if s.take 8 = "subgraph".toList then
    if (s.drop 8).takeWhile pyIsSpace = [] then none
    else
      match (s.drop 8).dropWhile pyIsSpace with
      | [] => none
      | c :: cs =>
        if isIdentStart c then some (c :: cs.takeWhile isIdentChar) else none
  else none

/-- Group 1 of re.match against the quoted-label subgraph pattern of the
first pass: the word subgraph, whitespace, then a double-quoted
non-empty label. -/
def subgraphLabelMatch (s : List Char) : Option (List Char) :=
  if s.take 8 = "subgraph".toList then
    if (s.drop 8).takeWhile pyIsSpace = [] then none
    else
      match (s.drop 8).dropWhile pyIsSpace with
      | [] => none
      | c :: cs =>
        if c = dquote then
          if cs.takeWhile (fun x => !(x = dquote)) = [] then none
          else if cs.dropWhile (fun x => !(x = dquote)) = [] then none
          else some (cs.takeWhile (fun x => !(x = dquote)))
        else none
  else none

/-- Group 1 of re.match against the class-statement pattern of the second
pass: the word class, one or more whitespace characters, then one or more
characters other than ; and :.  The second branch reflects regex
backtracking: when every character after the whitespace run is a
terminator (or the line ends there), the final whitespace character is
surrendered by the greedy whitespace quantifier and becomes the group. -/
def classMatch (s : List Char) : Option (List Char) :=
  if s.take 5 = "class".toList then
    if (s.drop 5).takeWhile pyIsSpace = [] then none
    else
      if ((s.drop 5).dropWhile pyIsSpace).takeWhile notTerm = [] then
        if 2 ≤ ((s.drop 5).takeWhile pyIsSpace).length then
          some [((s.drop 5).takeWhile pyIsSpace).getLastD ' ']
        else none
      else some (((s.drop 5).dropWhile pyIsSpace).takeWhile notTerm)
  else none

/-- Model of label.replace applied twice: first deleting every space
character, then deleting every single-quote character. -/
def normalizeLabel (label : List Char) : List Char :=
  (label.filter (fun c => !(c = ' '))).filter (fun c => !(c = squote))

/-- Identifiers the first pass adds to subgraph_ids while visiting one
line: the bareword identifier when the explicit pattern matches, then the
quoted label and, when non-empty, its normalized variant. -/
def lineSubgraphIds (line : List Char) : List (List Char) :=
  (match subgraphExplicitMatch (pyStrip line) with
   | some i => [i]
   | none => []) ++
  (match subgraphLabelMatch (pyStrip line) with
   | some label =>
     [label] ++ (if normalizeLabel label = [] then [] else [normalizeLabel label])
   | none => [])

def collectStep (acc : List (List Char)) (line : List Char) : List (List Char) :=
  acc ++ lineSubgraphIds line

/-- First pass of clean_invalid_class_statements: collect the subgraph
identifiers and labels of every line. -/
def collectSubgraphIds (lines : List (List Char)) : List (List Char) :=
  lines.foldl collectStep []

/-- Model of id.strip().strip of the quote characters, applied to one
comma-separated piece of the targets clause. -/
def cleanPiece (p : List Char) : List Char := stripChars isQuote (pyStrip p)

/-- The cleaned target identifiers of a class statement whose pattern
group is g: strip g, split it on commas, strip each piece of whitespace
and then of surrounding quote characters. -/
def cleanedTargets (g : List Char) : List (List Char) :=
  (splitSep ',' (pyStrip g)).map cleanPiece

def targetBad (ids : List (List Char)) (t : List Char) : Bool :=
  ids.contains t || t.contains ' ' || t.contains squote

/-- Second-pass decision for one line: the line survives unless its
trimmed form starts with the class keyword, the class pattern matches,
and some cleaned target is a subgraph identifier or contains a space or
single-quote character. -/
def lineKept (ids : List (List Char)) (line : List Char) : Bool :=
  if (pyStrip line).take 6 = "class ".toList then
    match classMatch (pyStrip line) with
    | some g => !((cleanedTargets g).any (targetBad ids))
    | none => true
  else true

def keepStep (ids : List (List Char)) (acc : List (List Char)) (line : List Char) :
    List (List Char) :=
  if lineKept ids line then acc ++ [line] else acc

/-- Second pass of clean_invalid_class_statements: append every surviving
line, in order. -/
def cleanLines (ids : List (List Char)) (lines : List (List Char)) : List (List Char) :=
  lines.foldl (keepStep ids) []

/-- The whole sanitizer on character lists: split on newlines, collect the
subgraph identifiers, filter the lines, join with newlines. -/
def cleanCore (diagram : List Char) : List Char :=
  joinSep nlChar
    (cleanLines (collectSubgraphIds (splitSep nlChar diagram)) (splitSep nlChar diagram))

/-- clean_invalid_class_statements of src/backend/app/routers/modify.py,
at the String level. -/
def clean_invalid_class_statements (diagram : String) : String :=
  String.mk (cleanCore diagram.toList)

/-- Targets clause as the specification words it: the substring after the
keyword class and its following whitespace, up to but not including the
first ; or :, or the whole remainder when no terminator exists. -/
def specTargetsClause (ls : List Char) : List Char :=
  ((ls.drop 5).dropWhile pyIsSpace).takeWhile notTerm

/-- Cleaned targets as the specification words them: the comma-separated
pieces of the targets clause, whitespace-trimmed and then stripped of
surrounding quote characters. -/
def specCleanedTargets (ls : List Char) : List (List Char) :=
  (splitSep ',' (specTargetsClause ls)).map cleanPiece

/-- Model of .group(1) on a possibly failed match: raises on None. -/
def pyGroup1 (m : Option (List Char)) : Except String (List Char) :=
  match m with
  | some g => Except.ok g
  | none => Except.error "NoneType object has no attribute group"

/-- First-pass body with the group accesses made fallible, to state that
no exception is reachable. -/
def collectStepE (acc : List (List Char)) (line : List Char) :
    Except String (List (List Char)) := do
  let acc1 ←
    if (subgraphExplicitMatch (pyStrip line)).isSome then do
      let i ← pyGroup1 (subgraphExplicitMatch (pyStrip line))
      pure (acc ++ [i])
    else pure acc
  if (subgraphLabelMatch (pyStrip line)).isSome then do
    let label ← pyGroup1 (subgraphLabelMatch (pyStrip line))
    pure (acc1 ++ [label] ++
      (if normalizeLabel label = [] then [] else [normalizeLabel label]))
  else pure acc1

/-- Second-pass decision with the group access made fallible. -/
def lineKeptE (ids : List (List Char)) (line : List Char) : Except String Bool :=
  if (pyStrip line).take 6 = "class ".toList then
    if (classMatch (pyStrip line)).isSome then do
      let g ← pyGroup1 (classMatch (pyStrip line))
      pure (!((cleanedTargets g).any (targetBad ids)))
    else pure true
  else pure true

def keepStepE (ids : List (List Char)) (acc : List (List Char)) (line : List Char) :
    Except String (List (List Char)) := do
  let k ← lineKeptE ids line
  pure (if k then acc ++ [line] else acc)

/-- The whole sanitizer with every fallible step in the Except monad. -/
def cleanCoreE (diagram : List Char) : Except String (List Char) := do
  let ids ← (splitSep nlChar diagram).foldlM collectStepE []
  let kept ← (splitSep nlChar diagram).foldlM (keepStepE ids) []
  pure (joinSep nlChar kept)

/- Basic properties of the split and join models. -/

theorem splitSep_cons_eq (sep c : Char) (cs g : List Char) (gs : List (List Char))
    (h : splitSep sep cs = g :: gs) :
    splitSep sep (c :: cs) = if c = sep then [] :: g :: gs else (c :: g) :: gs := by
  simp only [splitSep, h]

theorem splitSep_ne_nil (sep : Char) : ∀ s : List Char, splitSep sep s ≠ []
  | [] => by simp [splitSep]
  | c :: cs => by
    cases h : splitSep sep cs with
    | nil => exact absurd h (splitSep_ne_nil sep cs)
    | cons g gs =>
      rw [splitSep_cons_eq sep c cs g gs h]
      split <;> simp

theorem joinSep_splitSep (sep : Char) : ∀ s : List Char, joinSep sep (splitSep sep s) = s
  | [] => rfl
  | c :: cs => by
    have ih := joinSep_splitSep sep cs
    cases h : splitSep sep cs with
    | nil => exact absurd h (splitSep_ne_nil sep cs)
    | cons g gs =>
      rw [h] at ih
      rw [splitSep_cons_eq sep c cs g gs h]
      by_cases hc : c = sep
      · subst hc
        simp only [if_pos rfl, joinSep]
        rw [ih]
        simp
      · rw [if_neg hc]
        cases gs with
        | nil =>
          simp only [joinSep] at ih ⊢
          rw [ih]
        | cons g2 gs2 =>
          simp only [joinSep] at ih ⊢
          rw [List.cons_append, ih]

theorem mem_splitSep_not_mem (sep : Char) :
    ∀ (s l : List Char), l ∈ splitSep sep s → sep ∉ l
  | [], l, h => by
    simp [splitSep] at h
    simp [h]
  | c :: cs, l, h => by
    cases hs : splitSep sep cs with
    | nil => exact absurd hs (splitSep_ne_nil sep cs)
    | cons g gs =>
      rw [splitSep_cons_eq sep c cs g gs hs] at h
      by_cases hc : c = sep
      · rw [if_pos hc] at h
        rcases List.mem_cons.mp h with h1 | h2
        · simp [h1]
        · exact mem_splitSep_not_mem sep cs l (hs ▸ h2)
      · rw [if_neg hc] at h
        rcases List.mem_cons.mp h with h1 | h2
        · subst h1
          intro hmem
          rcases List.mem_cons.mp hmem with h3 | h4
          · exact hc h3.symm
          · exact mem_splitSep_not_mem sep cs g (hs ▸ List.mem_cons_self g gs) h4
        · exact mem_splitSep_not_mem sep cs l (hs ▸ List.mem_cons_of_mem g h2)

theorem splitSep_of_not_mem (sep : Char) :
    ∀ {s : List Char}, sep ∉ s → splitSep sep s = [s]
  | [], _ => rfl
  | c :: cs, h => by
    have hc : ¬c = sep := fun he => h (he ▸ List.mem_cons_self c cs)
    have hcs : sep ∉ cs := fun hm => h (List.mem_cons_of_mem c hm)
    rw [splitSep_cons_eq sep c cs cs [] (splitSep_of_not_mem sep hcs), if_neg hc]

theorem splitSep_append_cons (sep : Char) :
    ∀ {x : List Char}, sep ∉ x → ∀ r : List Char,
      splitSep sep (x ++ sep :: r) = x :: splitSep sep r
  | [], _, r => by
    cases hs : splitSep sep r with
    | nil => exact absurd hs (splitSep_ne_nil sep r)
    | cons g gs =>
      rw [List.nil_append, splitSep_cons_eq sep sep r g gs hs, if_pos rfl]
  | c :: x', h, r => by
    have hc : ¬c = sep := fun he => h (he ▸ List.mem_cons_self c x')
    have hx' : sep ∉ x' := fun hm => h (List.mem_cons_of_mem c hm)
    rw [List.cons_append,
      splitSep_cons_eq sep c (x' ++ sep :: r) x' (splitSep sep r)
        (splitSep_append_cons sep hx' r),
      if_neg hc]

theorem splitSep_joinSep (sep : Char) :
    ∀ K : List (List Char), K ≠ [] → (∀ l ∈ K, sep ∉ l) →
      splitSep sep (joinSep sep K) = K
  | [], h, _ => absurd rfl h
  | [x], _, hm => by
    simp only [joinSep]
    exact splitSep_of_not_mem sep (hm x (List.mem_cons_self x []))
  | x :: y :: xs, _, hm => by
    simp only [joinSep]
    rw [splitSep_append_cons sep (hm x (List.mem_cons_self x (y :: xs)))]
    rw [splitSep_joinSep sep (y :: xs) (by simp)
      (fun l hl => hm l (List.mem_cons_of_mem x hl))]

/- Properties of the strip model. -/

theorem stripChars_nil (p : Char → Bool) : stripChars p [] = [] := rfl

theorem dropWhile_eq_nil_of_all {p : Char → Bool} {a : List Char}
    (h : ∀ c ∈ a, p c = true) : a.dropWhile p = [] :=
  List.dropWhile_eq_nil_iff.mpr h

theorem dropWhile_append_of_ne_nil {p : Char → Bool} {a b : List Char}
    (h : ¬a.dropWhile p = []) :
    (a ++ b).dropWhile p = a.dropWhile p ++ b := by
  rw [List.dropWhile_append]
  simp only [List.isEmpty_iff]
  rw [if_neg h]

theorem stripChars_append_right (p : Char → Bool) (y b : List Char)
    (hb : ∀ c ∈ b, p c = true) : stripChars p (y ++ b) = stripChars p y := by
  unfold stripChars
  by_cases hy : y.dropWhile p = []
  · have hall : ∀ c ∈ y, p c = true := List.dropWhile_eq_nil_iff.mp hy
    have hyb : (y ++ b).dropWhile p = [] := by
      apply dropWhile_eq_nil_of_all
      intro c hc
      rcases List.mem_append.mp hc with h1 | h2
      · exact hall c h1
      · exact hb c h2
    rw [hy, hyb]
  · rw [dropWhile_append_of_ne_nil hy, List.reverse_append]
    rw [List.dropWhile_append_of_pos
      (fun c hc => hb c (List.mem_reverse.mp hc))]

theorem stripChars_single_of_pos {p : Char → Bool} {c : Char} (h : p c = true) :
    stripChars p [c] = [] := by
  unfold stripChars
  simp [List.dropWhile_cons, h]

/-- Decompose a string whose head does not satisfy p into its p-stripped
form followed by a p-suffix. -/
theorem eq_stripChars_append (p : Char → Bool) (g : List Char)
    (hg : g.dropWhile p = g) :
    g = stripChars p g ++ (g.reverse.takeWhile p).reverse ∧
      ∀ c ∈ (g.reverse.takeWhile p).reverse, p c = true := by
  constructor
  · unfold stripChars
    rw [hg]
    conv_lhs => rw [← g.reverse_reverse]
    conv_lhs => rw [← List.takeWhile_append_dropWhile p g.reverse]
    rw [List.reverse_append]
  · intro c hc
    exact List.mem_takeWhile_imp (List.mem_reverse.mp hc)

/- Bridges of the two foldl passes to filter and to pointwise membership. -/

theorem foldl_keepStep_eq (ids : List (List Char)) :
    ∀ (L : List (List Char)) (acc : List (List Char)),
      L.foldl (keepStep ids) acc = acc ++ L.filter (lineKept ids)
  | [], acc => by simp [List.foldl]
  | l :: L, acc => by
    simp only [List.foldl, keepStep, List.filter]
    by_cases h : lineKept ids l
    · rw [if_pos h, h, foldl_keepStep_eq ids L (acc ++ [l])]
      simp
    · rw [if_neg h, Bool.not_eq_true] at *
      rw [h, foldl_keepStep_eq ids L acc]

theorem cleanLines_eq_filter (ids L : List (List Char)) :
    cleanLines ids L = L.filter (lineKept ids) := by
  unfold cleanLines
  rw [foldl_keepStep_eq ids L []]
  simp

theorem foldl_collectStep_mem (x : List Char) :
    ∀ (L : List (List Char)) (acc : List (List Char)),
      (x ∈ L.foldl collectStep acc ↔
        x ∈ acc ∨ ∃ l, l ∈ L ∧ x ∈ lineSubgraphIds l)
  | [], acc => by simp [List.foldl]
  | l :: L, acc => by
    simp only [List.foldl, collectStep]
    rw [foldl_collectStep_mem x L (acc ++ lineSubgraphIds l)]
    simp only [List.mem_append, List.mem_cons]
    constructor
    · rintro ((h1 | h2) | ⟨l2, hl2, hx⟩)
      · exact Or.inl h1
      · exact Or.inr ⟨l, Or.inl rfl, h2⟩
      · exact Or.inr ⟨l2, Or.inr hl2, hx⟩
    · rintro (h1 | ⟨l2, (rfl | hl2), hx⟩)
      · exact Or.inl (Or.inl h1)
      · exact Or.inl (Or.inr hx)
      · exact Or.inr ⟨l2, hl2, hx⟩

theorem mem_collectSubgraphIds (x : List Char) (L : List (List Char)) :
    x ∈ collectSubgraphIds L ↔ ∃ l, l ∈ L ∧ x ∈ lineSubgraphIds l := by
  unfold collectSubgraphIds
  rw [foldl_collectStep_mem x L []]
  simp

theorem contains_eq_decide_mem (ids : List (List Char)) (t : List Char) :
    ids.contains t = decide (t ∈ ids) := by
  simp [List.contains]

/- Splitting a string with a separator-free suffix appended: the suffix
lands on the final piece. -/

theorem splitSep_append_suffix (sep : Char) (b : List Char)
    (hb : ∀ c ∈ b, ¬c = sep) :
    ∀ m : List Char,
      ∃ (front : List (List Char)) (last : List Char),
        splitSep sep m = front ++ [last] ∧
          splitSep sep (m ++ b) = front ++ [last ++ b]
  | [] => by
    refine ⟨[], [], rfl, ?_⟩
    simp only [List.nil_append]
    exact splitSep_of_not_mem sep (fun hm => hb sep hm rfl)
  | c :: m' => by
    obtain ⟨front, last, h1, h2⟩ := splitSep_append_suffix sep b hb m'
    cases front with
    | nil =>
      rw [List.nil_append] at h1 h2
      by_cases hc : c = sep
      · exact ⟨[[]], last, by
          rw [splitSep_cons_eq sep c m' last [] h1, if_pos hc]
          simp, by
          rw [List.cons_append, splitSep_cons_eq sep c (m' ++ b) (last ++ b) [] h2,
            if_pos hc]
          simp⟩
      · exact ⟨[], c :: last, by
          rw [splitSep_cons_eq sep c m' last [] h1, if_neg hc]
          simp, by
          rw [List.cons_append, splitSep_cons_eq sep c (m' ++ b) (last ++ b) [] h2,
            if_neg hc]
          simp⟩
    | cons g front' =>
      rw [List.cons_append] at h1 h2
      by_cases hc : c = sep
      · exact ⟨[] :: g :: front', last, by
          rw [splitSep_cons_eq sep c m' g (front' ++ [last]) h1, if_pos hc]
          simp, by
          rw [List.cons_append,
            splitSep_cons_eq sep c (m' ++ b) g (front' ++ [last ++ b]) h2, if_pos hc]
          simp⟩
      · exact ⟨(c :: g) :: front', last, by
          rw [splitSep_cons_eq sep c m' g (front' ++ [last]) h1, if_neg hc]
          simp, by
          rw [List.cons_append,
            splitSep_cons_eq sep c (m' ++ b) g (front' ++ [last ++ b]) h2, if_neg hc]
          simp⟩

/- The cleaned targets computed from the class-pattern group agree with
the cleaned targets the specification describes on the targets clause. -/

theorem head_dropWhile_false {p : Char → Bool} :
    ∀ {l : List Char} {c : Char} {r : List Char},
      List.dropWhile p l = c :: r → p c = false := by
  intro l
  induction l with
  | nil => intro c r h; simp [List.dropWhile] at h
  | cons a l' ih =>
    intro c r h
    by_cases hpa : p a
    · rw [List.dropWhile_cons_of_pos hpa] at h
      exact ih h
    · rw [List.dropWhile_cons_of_neg hpa] at h
      cases h
      exact Bool.not_eq_true _ ▸ hpa

theorem cleanPiece_append_ws (x b : List Char)
    (hb : ∀ c ∈ b, pyIsSpace c = true) : cleanPiece (x ++ b) = cleanPiece x := by
  unfold cleanPiece pyStrip
  rw [stripChars_append_right pyIsSpace x b hb]

theorem map_cleanPiece_splitSep_append (m b : List Char)
    (hb : ∀ c ∈ b, pyIsSpace c = true) :
    (splitSep ',' (m ++ b)).map cleanPiece = (splitSep ',' m).map cleanPiece := by
  have hb' : ∀ c ∈ b, ¬c = ',' := by
    intro c hc heq
    have : pyIsSpace ',' = true := heq ▸ hb c hc
    exact absurd this (by decide)
  obtain ⟨front, last, h1, h2⟩ := splitSep_append_suffix ',' b hb' m
  rw [h1, h2, List.map_append, List.map_append, List.map_cons, List.map_cons,
    cleanPiece_append_ws last b hb]

theorem map_cleanPiece_splitSep_pyStrip (g : List Char)
    (hg : g.dropWhile pyIsSpace = g) :
    (splitSep ',' (pyStrip g)).map cleanPiece = (splitSep ',' g).map cleanPiece := by
  obtain ⟨hdec, hall⟩ := eq_stripChars_append pyIsSpace g hg
  conv_rhs => rw [hdec]
  exact (map_cleanPiece_splitSep_append (pyStrip g) _ hall).symm

theorem cleanedTargets_eq_spec (ls g : List Char)
    (h : classMatch ls = some g) : cleanedTargets g = specCleanedTargets ls := by
  unfold classMatch at h
  by_cases h5 : ls.take 5 = "class".toList
  · rw [if_pos h5] at h
    by_cases hw : (ls.drop 5).takeWhile pyIsSpace = []
    · rw [if_pos hw] at h
      exact absurd h (by simp)
    · rw [if_neg hw] at h
      by_cases hg0 : ((ls.drop 5).dropWhile pyIsSpace).takeWhile notTerm = []
      · rw [if_pos hg0] at h
        by_cases hlen : 2 ≤ ((ls.drop 5).takeWhile pyIsSpace).length
        · rw [if_pos hlen] at h
          have hg : g = [((ls.drop 5).takeWhile pyIsSpace).getLastD ' '] :=
            (Option.some.injEq _ _ ▸ h).symm
          have hsp : pyIsSpace (((ls.drop 5).takeWhile pyIsSpace).getLastD ' ') = true := by
            rcases List.mem_cons.mp
                (List.getLastD_mem_cons ((ls.drop 5).takeWhile pyIsSpace) ' ') with
              h1 | h2
            · rw [h1]; decide
            · exact List.mem_takeWhile_imp h2
          rw [hg]
          unfold cleanedTargets specCleanedTargets specTargetsClause
          rw [hg0]
          rw [show pyStrip [((ls.drop 5).takeWhile pyIsSpace).getLastD ' '] = [] from
            stripChars_single_of_pos hsp]
        · rw [if_neg hlen] at h
          exact absurd h (by simp)
      · rw [if_neg hg0] at h
        have hg : g = ((ls.drop 5).dropWhile pyIsSpace).takeWhile notTerm :=
          (Option.some.injEq _ _ ▸ h).symm
        unfold specCleanedTargets specTargetsClause cleanedTargets
        rw [hg]
        apply map_cleanPiece_splitSep_pyStrip
        cases hT : (ls.drop 5).dropWhile pyIsSpace with
        | nil => rw [hT] at hg0; exact absurd rfl hg0
        | cons c t' =>
          have hcns : pyIsSpace c = false := head_dropWhile_false hT
          by_cases hnt : notTerm c
          · rw [List.takeWhile_cons_of_pos hnt,
              List.dropWhile_cons_of_neg (by simp [hcns])]
          · rw [hT] at hg0
            rw [List.takeWhile_cons_of_neg hnt] at hg0
            exact absurd rfl hg0
  · rw [if_neg h5] at h
    exact absurd h (by simp)

/- Characterizations of the per-line keep decision. -/

theorem targetBad_eq_false_iff (ids : List (List Char)) (t : List Char) :
    targetBad ids t = false ↔ ¬(t ∈ ids ∨ ' ' ∈ t ∨ squote ∈ t) := by
  unfold targetBad
  simp [List.contains, not_or, and_assoc]

theorem lineKept_eq_true_iff (ids : List (List Char)) (line g : List Char)
    (hcls : (pyStrip line).take 6 = "class ".toList)
    (hm : classMatch (pyStrip line) = some g) :
    (lineKept ids line = true ↔
      ∀ t ∈ specCleanedTargets (pyStrip line),
        ¬(t ∈ ids ∨ ' ' ∈ t ∨ squote ∈ t)) := by
  simp only [lineKept, if_pos hcls, hm]
  rw [cleanedTargets_eq_spec (pyStrip line) g hm]
  rw [Bool.not_eq_true']
  rw [List.any_eq_false]
  constructor
  · intro h t ht
    exact (targetBad_eq_false_iff ids t).mp (Bool.not_eq_true _ ▸ h t ht)
  · intro h t ht
    rw [Bool.not_eq_true]
    exact (targetBad_eq_false_iff ids t).mpr (h t ht)

theorem any_congr_on (l : List (List Char)) (p q : List Char → Bool)
    (h : ∀ a ∈ l, p a = q a) : l.any p = l.any q := by
  induction l with
  | nil => rfl
  | cons a l ih =>
    simp only [List.any_cons]
    rw [h a (List.mem_cons_self a l),
      ih (fun b hb => h b (List.mem_cons_of_mem a hb))]

theorem contains_congr (ids₁ ids₂ : List (List Char))
    (h : ∀ t : List Char, t ∈ ids₁ ↔ t ∈ ids₂) (t : List Char) :
    ids₁.contains t = ids₂.contains t := by
  rw [contains_eq_decide_mem, contains_eq_decide_mem]
  exact decide_eq_decide.mpr (h t)

theorem lineKept_congr (ids₁ ids₂ : List (List Char)) (line : List Char)
    (h : ∀ t : List Char, t ∈ ids₁ ↔ t ∈ ids₂) :
    lineKept ids₁ line = lineKept ids₂ line := by
  unfold lineKept
  by_cases hcls : (pyStrip line).take 6 = "class ".toList
  · rw [if_pos hcls, if_pos hcls]
    cases hm : classMatch (pyStrip line) with
    | none => rfl
    | some g =>
      simp only
      congr 1
      apply any_congr_on
      intro t _
      unfold targetBad
      rw [contains_congr ids₁ ids₂ h t]
  · rw [if_neg hcls, if_neg hcls]

theorem lineKept_antitone (ids₁ ids₂ : List (List Char)) (line : List Char)
    (hsub : ∀ x : List Char, x ∈ ids₂ → x ∈ ids₁)
    (hk : lineKept ids₁ line = true) : lineKept ids₂ line = true := by
  unfold lineKept at hk ⊢
  by_cases hcls : (pyStrip line).take 6 = "class ".toList
  · rw [if_pos hcls] at hk ⊢
    cases hm : classMatch (pyStrip line) with
    | none => simp [hm]
    | some g =>
      rw [hm] at hk
      simp only at hk ⊢
      rw [Bool.not_eq_true'] at hk ⊢
      rw [List.any_eq_false] at hk ⊢
      intro t ht
      have h1 := (targetBad_eq_false_iff ids₁ t).mp (Bool.not_eq_true _ ▸ hk t ht)
      rw [Bool.not_eq_true]
      apply (targetBad_eq_false_iff ids₂ t).mpr
      intro hbad
      apply h1
      rcases hbad with hb1 | hb2
      · exact Or.inl (hsub t hb1)
      · exact Or.inr hb2
  · rw [if_neg hcls]

/- The fallible variant never reaches an error. -/

theorem except_bind_ok {α β : Type} (a : α) (f : α → Except String β) :
    (Except.ok a >>= f) = f a := rfl

theorem except_pure_eq {β : Type} (a : β) : (pure a : Except String β) = Except.ok a := rfl

theorem foldlM_ok {α β : Type} (f : β → α → Except String β) (g : β → α → β)
    (hf : ∀ b a, f b a = Except.ok (g b a)) :
    ∀ (L : List α) (b : β), List.foldlM f b L = Except.ok (List.foldl g b L)
  | [], b => rfl
  | a :: L, b => by
    rw [List.foldlM_cons, hf b a, except_bind_ok, List.foldl_cons]
    exact foldlM_ok f g hf L (g b a)

theorem collectStepE_ok (acc : List (List Char)) (line : List Char) :
    collectStepE acc line = Except.ok (collectStep acc line) := by
  unfold collectStepE collectStep lineSubgraphIds
  cases hm1 : subgraphExplicitMatch (pyStrip line) with
  | none =>
    cases hm2 : subgraphLabelMatch (pyStrip line) with
    | none => simp [pyGroup1, except_bind_ok, except_pure_eq]
    | some label => simp [pyGroup1, except_bind_ok, except_pure_eq]
  | some i =>
    cases hm2 : subgraphLabelMatch (pyStrip line) with
    | none => simp [pyGroup1, except_bind_ok, except_pure_eq]
    | some label => simp [pyGroup1, except_bind_ok, except_pure_eq]

theorem lineKeptE_ok (ids : List (List Char)) (line : List Char) :
    lineKeptE ids line = Except.ok (lineKept ids line) := by
  unfold lineKeptE lineKept
  by_cases hcls : (pyStrip line).take 6 = "class ".toList
  · rw [if_pos hcls, if_pos hcls]
    cases hm : classMatch (pyStrip line) with
    | none => simp [except_pure_eq]
    | some g => simp [pyGroup1, except_bind_ok, except_pure_eq]
  · rw [if_neg hcls, if_neg hcls]
    rfl

theorem keepStepE_ok (ids : List (List Char)) (acc : List (List Char)) (line : List Char) :
    keepStepE ids acc line = Except.ok (keepStep ids acc line) := by
  unfold keepStepE keepStep
  rw [lineKeptE_ok ids line, except_bind_ok, except_pure_eq]

/- Claim theorems. -/

/-- C1: for every input string and every line of it whose trimmed form
starts with the class keyword and a space and whose targets clause is
extracted by the class pattern, the line is kept if and only if none of
its cleaned target identifiers is a member of the subgraph-identifier
set, contains a space character, or contains a single-quote character;
and a kept line appears verbatim among the output lines. -/
theorem claim1_class_filter_iff (d line g : List Char)
    (hmem : line ∈ splitSep nlChar d)
    (hcls : (pyStrip line).take 6 = "class ".toList)
    (hm : classMatch (pyStrip line) = some g) :
    (lineKept (collectSubgraphIds (splitSep nlChar d)) line = true ↔
      ∀ t ∈ specCleanedTargets (pyStrip line),
        ¬(t ∈ collectSubgraphIds (splitSep nlChar d) ∨ ' ' ∈ t ∨ squote ∈ t)) ∧
    (lineKept (collectSubgraphIds (splitSep nlChar d)) line = true →
      line ∈ cleanLines (collectSubgraphIds (splitSep nlChar d)) (splitSep nlChar d)) := by
  constructor
  · exact lineKept_eq_true_iff _ line g hcls hm
  · intro hk
    rw [cleanLines_eq_filter]
    exact List.mem_filter.mpr ⟨hmem, hk⟩

/-- Witness for C1 at the one-line input consisting only of the class
statement with targets a and b. -/
theorem claim1_class_filter_iff_witness :
    (lineKept (collectSubgraphIds (splitSep nlChar "class a,b".toList))
        "class a,b".toList = true ↔
      ∀ t ∈ specCleanedTargets (pyStrip "class a,b".toList),
        ¬(t ∈ collectSubgraphIds (splitSep nlChar "class a,b".toList) ∨
          ' ' ∈ t ∨ squote ∈ t)) ∧
    (lineKept (collectSubgraphIds (splitSep nlChar "class a,b".toList))
        "class a,b".toList = true →
      "class a,b".toList ∈
        cleanLines (collectSubgraphIds (splitSep nlChar "class a,b".toList))
          (splitSep nlChar "class a,b".toList)) :=
  claim1_class_filter_iff "class a,b".toList "class a,b".toList "a,b".toList
    (by decide) (by decide) (by decide)

/-- C2: on the Scenario A input the code removes BOTH class lines, not
only the first one: the regex group of the class pattern runs to the
first colon, so the single target of the final line is the
space-containing string consisting of A, a space, and the word fill, and
the space heuristic drops that line as well.  This theorem evaluates the
code at the failing input. -/
theorem claim2_scenarioA_code_result :
    clean_invalid_class_statements
        "subgraph API\nA-->B\nend\nclass API,A fill:#f9f\nclass A fill:#bbf" =
      "subgraph API\nA-->B\nend" := by decide

/-- C3: the keep decision depends on the line set only through the
collected subgraph identifiers, and collecting over any permutation of
the lines yields the same members, so filtering is position-independent;
in particular a class statement placed before the subgraph declaration it
references is still dropped. -/
theorem claim3_position_independence :
    (∀ L₁ L₂ : List (List Char), L₁.Perm L₂ → ∀ line : List Char,
      lineKept (collectSubgraphIds L₁) line = lineKept (collectSubgraphIds L₂) line) ∧
    clean_invalid_class_statements "class API\nsubgraph API" = "subgraph API" := by
  constructor
  · intro L₁ L₂ h line
    apply lineKept_congr
    intro t
    rw [mem_collectSubgraphIds, mem_collectSubgraphIds]
    constructor
    · rintro ⟨l, hl, hx⟩
      exact ⟨l, h.mem_iff.mp hl, hx⟩
    · rintro ⟨l, hl, hx⟩
      exact ⟨l, h.mem_iff.mpr hl, hx⟩
  · decide

/-- Witness for C3 at a two-line swap. -/
theorem claim3_position_independence_witness :
    lineKept (collectSubgraphIds ["subgraph S".toList, "A-->B".toList])
        "class S fill".toList =
      lineKept (collectSubgraphIds ["A-->B".toList, "subgraph S".toList])
        "class S fill".toList :=
  claim3_position_independence.1 ["subgraph S".toList, "A-->B".toList]
    ["A-->B".toList, "subgraph S".toList] (by decide) "class S fill".toList

theorem cleanCore_idempotent (d : List Char) :
    cleanCore (cleanCore d) = cleanCore d := by
  have h1 : cleanCore d =
      joinSep nlChar ((splitSep nlChar d).filter
        (lineKept (collectSubgraphIds (splitSep nlChar d)))) := by
    unfold cleanCore
    rw [cleanLines_eq_filter]
  by_cases hK : (splitSep nlChar d).filter
      (lineKept (collectSubgraphIds (splitSep nlChar d))) = []
  · rw [h1, hK]
    decide
  · have hKnl : ∀ l ∈ (splitSep nlChar d).filter
        (lineKept (collectSubgraphIds (splitSep nlChar d))), nlChar ∉ l := by
      intro l hl
      exact mem_splitSep_not_mem nlChar d l (List.mem_filter.mp hl).1
    have hsplit := splitSep_joinSep nlChar _ hK hKnl
    rw [h1]
    unfold cleanCore
    rw [hsplit, cleanLines_eq_filter]
    congr 1
    apply List.filter_eq_self.mpr
    intro l hl
    apply lineKept_antitone (collectSubgraphIds (splitSep nlChar d)) _ l _
      (List.mem_filter.mp hl).2
    intro x hx
    rw [mem_collectSubgraphIds] at hx
    rw [mem_collectSubgraphIds]
    obtain ⟨l2, hl2, hx2⟩ := hx
    exact ⟨l2, (List.mem_filter.mp hl2).1, hx2⟩

/-- C4: the sanitizer is idempotent: the identifiers collected from the
output are a subset of those collected from the input, and the keep
decision is antitone in the identifier set, so every kept line stays
kept. -/
theorem claim4_idempotent (x : String) :
    clean_invalid_class_statements (clean_invalid_class_statements x) =
      clean_invalid_class_statements x := by
  unfold clean_invalid_class_statements
  rw [show (String.mk (cleanCore x.toList)).toList = cleanCore x.toList from rfl]
  rw [cleanCore_idempotent]

/-- C5: whenever a line matches the quoted-label subgraph pattern, the
first pass registers the label verbatim and, when the normalized variant
obtained by deleting spaces and single quotes is non-empty, registers
that variant too; in particular the quoted label My Service registers
both forms, and in Scenario B the class line naming MyService is excluded
from the output. -/
theorem claim5_label_registration :
    (∀ (lines : List (List Char)) (line label : List Char),
      line ∈ lines →
      subgraphLabelMatch (pyStrip line) = some label →
      label ∈ collectSubgraphIds lines ∧
        (¬normalizeLabel label = [] →
          normalizeLabel label ∈ collectSubgraphIds lines)) ∧
    collectSubgraphIds ["subgraph \"My Service\"".toList] =
      ["My Service".toList, "MyService".toList] ∧
    clean_invalid_class_statements
        "subgraph \"My Service\"\nclass MyService fill:#ccc" =
      "subgraph \"My Service\"" := by
  refine ⟨?_, by decide, by decide⟩
  intro lines line label hmem hmatch
  constructor
  · rw [mem_collectSubgraphIds]
    refine ⟨line, hmem, ?_⟩
    simp only [lineSubgraphIds, hmatch, List.mem_append]
    right
    simp
  · intro hne
    rw [mem_collectSubgraphIds]
    refine ⟨line, hmem, ?_⟩
    simp only [lineSubgraphIds, hmatch, if_neg hne, List.mem_append]
    right
    simp

/-- Witness for C5 at a single quoted-label declaration line. -/
theorem claim5_label_registration_witness :
    "A B".toList ∈ collectSubgraphIds ["subgraph \"A B\"".toList] :=
  (claim5_label_registration.1 ["subgraph \"A B\"".toList]
    "subgraph \"A B\"".toList "A B".toList (by decide) (by decide)).1

/-- C6: the group of the class pattern never contains a terminator
character, so only the clause before the first ; or : is parsed; for the
Scenario E line the cleaned targets are exactly X and Y, and in any input
whose collected identifiers contain neither X nor Y the line is kept. -/
theorem claim6_terminator_truncation :
    (∀ ls g : List Char, classMatch ls = some g → ';' ∉ g ∧ ':' ∉ g) ∧
    classMatch (pyStrip "class X,Y; style X fill:#000".toList) =
      some "X,Y".toList ∧
    cleanedTargets "X,Y".toList = ["X".toList, "Y".toList] ∧
    (∀ ids : List (List Char), ids.contains "X".toList = false →
      ids.contains "Y".toList = false →
      lineKept ids "class X,Y; style X fill:#000".toList = true) := by
  refine ⟨?_, by decide, by decide, ?_⟩
  · intro ls g h
    unfold classMatch at h
    by_cases h5 : ls.take 5 = "class".toList
    · rw [if_pos h5] at h
      by_cases hw : (ls.drop 5).takeWhile pyIsSpace = []
      · rw [if_pos hw] at h
        exact absurd h (by simp)
      · rw [if_neg hw] at h
        by_cases hg0 : ((ls.drop 5).dropWhile pyIsSpace).takeWhile notTerm = []
        · rw [if_pos hg0] at h
          by_cases hlen : 2 ≤ ((ls.drop 5).takeWhile pyIsSpace).length
          · rw [if_pos hlen] at h
            have hg : g = [((ls.drop 5).takeWhile pyIsSpace).getLastD ' '] :=
              (Option.some.injEq _ _ ▸ h).symm
            have hsp : pyIsSpace
                (((ls.drop 5).takeWhile pyIsSpace).getLastD ' ') = true := by
              rcases List.mem_cons.mp
                  (List.getLastD_mem_cons ((ls.drop 5).takeWhile pyIsSpace) ' ') with
                hx | hx
              · rw [hx]; decide
              · exact List.mem_takeWhile_imp hx
            rw [hg]
            constructor
            · intro hmem
              rw [List.mem_singleton] at hmem
              rw [← hmem] at hsp
              exact absurd hsp (by decide)
            · intro hmem
              rw [List.mem_singleton] at hmem
              rw [← hmem] at hsp
              exact absurd hsp (by decide)
          · rw [if_neg hlen] at h
            exact absurd h (by simp)
        · rw [if_neg hg0] at h
          have hg : g = ((ls.drop 5).dropWhile pyIsSpace).takeWhile notTerm :=
            (Option.some.injEq _ _ ▸ h).symm
          rw [hg]
          constructor
          · intro hmem
            exact absurd (List.mem_takeWhile_imp hmem) (by decide)
          · intro hmem
            exact absurd (List.mem_takeWhile_imp hmem) (by decide)
    · rw [if_neg h5] at h
      exact absurd h (by simp)
  · intro ids hX hY
    have h1 : classMatch (pyStrip "class X,Y; style X fill:#000".toList) =
        some "X,Y".toList := by decide
    simp only [lineKept, if_pos (show (pyStrip
      "class X,Y; style X fill:#000".toList).take 6 = "class ".toList from by decide),
      h1,
      show cleanedTargets "X,Y".toList = ["X".toList, "Y".toList] from by decide,
      List.any_cons, List.any_nil, targetBad, hX, hY]
    decide

/-- Witness for C6 with the empty identifier set. -/
theorem claim6_terminator_truncation_witness :
    lineKept [] "class X,Y; style X fill:#000".toList = true :=
  claim6_terminator_truncation.2.2.2 [] (by decide) (by decide)

/-- C7: an input none of whose trimmed lines starts with the class keyword
and a space is returned unchanged, and the empty string maps to itself. -/
theorem claim7_identity_on_clean (d : List Char)
    (h : ∀ l ∈ splitSep nlChar d, ¬(pyStrip l).take 6 = "class ".toList) :
    cleanCore d = d ∧ clean_invalid_class_statements "" = "" := by
  constructor
  · unfold cleanCore
    rw [cleanLines_eq_filter]
    have hself : (splitSep nlChar d).filter
        (lineKept (collectSubgraphIds (splitSep nlChar d))) = splitSep nlChar d := by
      apply List.filter_eq_self.mpr
      intro l hl
      unfold lineKept
      rw [if_neg (h l hl)]
    rw [hself, joinSep_splitSep]
  · decide

/-- Witness for C7 at a one-edge diagram. -/
theorem claim7_identity_on_clean_witness :
    cleanCore "A-->B".toList = "A-->B".toList ∧
      clean_invalid_class_statements "" = "" :=
  claim7_identity_on_clean "A-->B".toList (by decide)

/-- C8: the sanitizer is total: with every group access made fallible, the
computation still returns successfully on every input, with the same
value the total model computes; no error branch is reachable. -/
theorem claim8_total (d : List Char) :
    cleanCoreE d = Except.ok (cleanCore d) := by
  unfold cleanCoreE
  rw [foldlM_ok collectStepE collectStep collectStepE_ok (splitSep nlChar d) [],
    except_bind_ok,
    foldlM_ok (keepStepE (List.foldl collectStep [] (splitSep nlChar d)))
      (keepStep (List.foldl collectStep [] (splitSep nlChar d)))
      (keepStepE_ok (List.foldl collectStep [] (splitSep nlChar d)))
      (splitSep nlChar d) [],
    except_bind_ok]
  rfl

/-- C9: the output lines form a sublist of the input lines, the output is
exactly the join of the lines passing the keep decision, and every line
whose trimmed form does not start with the class keyword and a space
passes the keep decision, so non-class lines are never removed or
altered. -/
theorem claim9_non_class_preserved (d : List Char) :
    (cleanLines (collectSubgraphIds (splitSep nlChar d))
        (splitSep nlChar d)).Sublist (splitSep nlChar d) ∧
    cleanCore d = joinSep nlChar
      ((splitSep nlChar d).filter
        (lineKept (collectSubgraphIds (splitSep nlChar d)))) ∧
    ∀ line ∈ splitSep nlChar d, ¬(pyStrip line).take 6 = "class ".toList →
      lineKept (collectSubgraphIds (splitSep nlChar d)) line = true := by
  refine ⟨?_, ?_, ?_⟩
  · rw [cleanLines_eq_filter]
    exact List.filter_sublist _
  · unfold cleanCore
    rw [cleanLines_eq_filter]
  · intro line _ hnc
    unfold lineKept
    rw [if_neg hnc]

/-- Witness for C9 at a two-line input with one edge line. -/
theorem claim9_non_class_preserved_witness :
    lineKept (collectSubgraphIds (splitSep nlChar "A-->B\nclass A x".toList))
        "A-->B".toList = true :=
  (claim9_non_class_preserved "A-->B\nclass A x".toList).2.2
    "A-->B".toList (by decide) (by decide)

theorem identStart_not_space {c : Char} (h : isIdentStart c = true) :
    pyIsSpace c = false := by
  by_cases h1 : c = ' '
  · subst h1
    exact absurd h (by decide)
  by_cases h2 : c = Char.ofNat 9
  · subst h2
    exact absurd h (by decide)
  by_cases h3 : c = nlChar
  · subst h3
    exact absurd h (by decide)
  by_cases h4 : c = Char.ofNat 13
  · subst h4
    exact absurd h (by decide)
  by_cases h5 : c = Char.ofNat 11
  · subst h5
    exact absurd h (by decide)
  by_cases h6 : c = Char.ofNat 12
  · subst h6
    exact absurd h (by decide)
  simp [pyIsSpace, h1, h2, h3, h4, h5, h6]

/-- C10: the bareword subgraph scan is a prefix match: whitespace after
the subgraph keyword, then a maximal identifier run, is captured no
matter what trailing text follows; the bracket-label line registers only
the identifier API and not the bracketed text. -/
theorem claim10_bareword_prefix :
    (∀ (ws : List Char) (c : Char) (cs tail : List Char),
      ¬ws = [] → (∀ x ∈ ws, pyIsSpace x = true) →
      isIdentStart c = true → (∀ x ∈ cs, isIdentChar x = true) →
      (∀ x ∈ tail.take 1, isIdentChar x = false) →
      subgraphExplicitMatch ("subgraph".toList ++ ws ++ (c :: cs) ++ tail) =
        some (c :: cs)) ∧
    lineSubgraphIds "subgraph API[My Label]".toList = ["API".toList] := by
  refine ⟨?_, by decide⟩
  intro ws c cs tail hne hws hc hcs htail
  have hcns : pyIsSpace c = false := identStart_not_space hc
  unfold subgraphExplicitMatch
  rw [List.append_assoc, List.append_assoc]
  rw [if_pos (List.take_left' (by decide))]
  rw [List.drop_left' (by decide)]
  have htw : (ws ++ ((c :: cs) ++ tail)).takeWhile pyIsSpace = ws := by
    rw [List.takeWhile_append_of_pos hws, List.cons_append,
      List.takeWhile_cons_of_neg (by simp [hcns])]
    simp
  have hdw : (ws ++ ((c :: cs) ++ tail)).dropWhile pyIsSpace = c :: (cs ++ tail) := by
    rw [List.dropWhile_append_of_pos hws, List.cons_append,
      List.dropWhile_cons_of_neg (by simp [hcns])]
  rw [if_neg (by rw [htw]; exact hne)]
  rw [hdw]
  simp only [if_pos hc]
  congr 1
  congr 1
  rw [List.takeWhile_append_of_pos hcs]
  cases tail with
  | nil => simp
  | cons x t' =>
    rw [List.takeWhile_cons_of_neg]
    · simp
    · simp [htail x (by simp)]

/-- Witness for C10 at the line subgraph, one space, identifier A,
bracketed text. -/
theorem claim10_bareword_prefix_witness :
    subgraphExplicitMatch ("subgraph".toList ++ [' '] ++ ('A' :: []) ++ "[x]".toList) =
      some ('A' :: []) :=
  claim10_bareword_prefix.1 [' '] 'A' [] "[x]".toList (by decide) (by decide)
    (by decide) (by decide) (by decide)
